import Mathlib

/-!
Verification of the Presentation Exchange matching and filtering core
(`pkg/doc/presexch/definition.go`).

The Go code is shallowly embedded: Go strings are Lean `String`s, Go maps
are association lists with assign-or-replace update (Go map keys are unique),
Go slices are Lean `List`s, Go `int` cardinalities are `Int`, and fallible
Go functions return `Except`.  External collaborators (the JSONPath
evaluator, the JSON Schema validator, the JWT parser and the JSON-LD
context resolution) are parameters of the embedded functions, matching the
contract boundaries of the source.
-/

namespace Presexch

/-! ## Constants (`definition.go`, `const` block) -/

/-- Go constant `All Selection = "all"` (Selection is a string type). -/
def ruleAll : String := "all"

/-- Go constant `Pick Selection = "pick"`. -/
def rulePick : String := "pick"

/-- Go constant `Required Preference = "required"`. -/
def requiredPref : String := "required"

/-- Go constant `tmpEnding = "tmp_unique_id_"`. -/
def tmpEnding : String := "tmp_unique_id_"

/-- Go constant `credentialSchema = "credentialSchema"`. -/
def credentialSchemaStr : String := "credentialSchema"

/-- Go constant `FormatJWT`. -/
def FormatJWT : String := "jwt"

/-- Go constant `FormatJWTVC`. -/
def FormatJWTVC : String := "jwt_vc"

/-- Go constant `FormatJWTVP`. -/
def FormatJWTVP : String := "jwt_vp"

/-- Go constant `FormatLDP`. -/
def FormatLDP : String := "ldp"

/-- Go constant `FormatLDPVC`. -/
def FormatLDPVC : String := "ldp_vc"

/-- Go constant `FormatLDPVP`. -/
def FormatLDPVP : String := "ldp_vp"

/-- Go `(*Preference).isRequired`: a nil pointer is not required; otherwise
the preference must equal `Required`.  The `*Preference` pointer is embedded
as `Option String`. -/
def prefIsRequired (v : Option String) : Bool :=
  match v with
  | none => false
  | some p => p = requiredPref

/-! ## Association lists (Go maps)

Go maps are embedded as association lists.  `alookup` is a map read and
`alistInsert` is a map assignment (replacing the binding when the key is
present, appending it otherwise). -/

/-- Map read of a Go map embedded as an association list. -/
def alookup (l : List (String × α)) (k : String) : Option α :=
  match l with
  | [] => none
  | (k', v) :: rest => if k' = k then some v else alookup rest k

/-- Map assignment of a Go map embedded as an association list. -/
def alistInsert (l : List (String × α)) (k : String) (v : α) : List (String × α) :=
  match l with
  | [] => [(k, v)]
  | (k', v') :: rest => if k' = k then (k, v) :: rest else (k', v') :: alistInsert rest k v

theorem alookup_mem {l : List (String × α)} {k : String} {v : α}
    (h : alookup l k = some v) : (k, v) ∈ l := by
  induction l with
  | nil => simp [alookup] at h
  | cons hd tl ih =>
    obtain ⟨k', v'⟩ := hd
    by_cases hk : k' = k
    · subst hk
      simp [alookup] at h
      simp [h]
    · simp [alookup, hk] at h
      exact List.mem_cons_of_mem _ (ih h)

theorem alookup_alistInsert_self (l : List (String × α)) (k : String) (v : α) :
    alookup (alistInsert l k v) k = some v := by
  induction l with
  | nil => simp [alistInsert, alookup]
  | cons hd tl ih =>
    obtain ⟨k', v'⟩ := hd
    by_cases hk : k' = k
    · subst hk; simp [alistInsert, alookup]
    · simp [alistInsert, alookup, hk, ih]

theorem alookup_alistInsert_ne (l : List (String × α)) {k k' : String} (v : α)
    (h : k' ≠ k) : alookup (alistInsert l k v) k' = alookup l k' := by
  have hk : ¬ (k = k') := fun hh => h hh.symm
  induction l with
  | nil => simp [alistInsert, alookup, hk]
  | cons hd tl ih =>
    obtain ⟨a, b⟩ := hd
    by_cases ha : a = k
    · subst ha
      simp [alistInsert, alookup, hk]
    · simp [alistInsert, alookup, ha, ih]

theorem alistInsert_length_fresh (l : List (String × α)) (k : String) (v : α)
    (h : alookup l k = none) : (alistInsert l k v).length = l.length + 1 := by
  induction l with
  | nil => simp [alistInsert]
  | cons hd tl ih =>
    obtain ⟨a, b⟩ := hd
    by_cases ha : a = k
    · simp [alookup, ha] at h
    · simp [alookup, ha] at h
      simp [alistInsert, ha, ih h]

/-! ## Cardinality (`requirement.isLenApplicable`) -/

/-- Go `(*requirement).isLenApplicable` on the three cardinality fields:
each of the `count`, `min` and `max` checks is skipped when the field is
not positive. -/
def isLenApplicable (count mn mx : Int) (val : Nat) : Bool :=
  if count > 0 ∧ (val : Int) ≠ count then false
  else if mn > 0 ∧ mn > (val : Int) then false
  else if mx > 0 ∧ mx < (val : Int) then false
  else true

/-! ## Data model -/

/-- Go `InputDescriptor`.  Only the fields the embedded requirement logic
reads are kept: `id` and `group`; the `schema`, `constraints` and `format`
fields are consumed by the per-descriptor filter pipeline, which the
requirement evaluator receives as a function parameter. -/
structure InputDescriptor where
  id : String
  group : List String
deriving DecidableEq, Repr

/-- Go `SubmissionRequirement` (recursive through `from_nested`).  The Go
field `From` is called `fromGroup` here. -/
inductive SubmissionRequirement where
  | mk (name purpose rule : String) (count mn mx : Int)
       (fromGroup : String) (fromNested : List SubmissionRequirement)

/-- Go internal `requirement` struct (recursive through `Nested`). -/
inductive Requirement where
  | mk (name purpose rule : String) (count mn mx : Int)
       (inputDescriptors : List InputDescriptor) (nested : List Requirement)

/-- Projection of the `Rule` field of a `Requirement`. -/
def Requirement.rule : Requirement → String
  | .mk _ _ r _ _ _ _ _ => r

/-- Projection of the `Count` field of a `Requirement`. -/
def Requirement.count : Requirement → Int
  | .mk _ _ _ c _ _ _ _ => c

/-- Projection of the `Min` field of a `Requirement`. -/
def Requirement.min : Requirement → Int
  | .mk _ _ _ _ m _ _ _ => m

/-- Projection of the `Max` field of a `Requirement`. -/
def Requirement.max : Requirement → Int
  | .mk _ _ _ _ _ m _ _ => m

/-- Projection of the `InputDescriptors` field of a `Requirement`. -/
def Requirement.inputDescriptors : Requirement → List InputDescriptor
  | .mk _ _ _ _ _ _ ds _ => ds

/-- Projection of the `Nested` field of a `Requirement`. -/
def Requirement.nested : Requirement → List Requirement
  | .mk _ _ _ _ _ _ _ ns => ns

/-- Go `(*requirement).isLenApplicable` as a method on the embedded
`requirement` struct. -/
def Requirement.isLenApplicable : Requirement → Nat → Bool
  | .mk _ _ _ c mn mx _ _, val => Presexch.isLenApplicable c mn mx val

/-- Errors of the presentation-exchange core.  `noCredentials` embeds
`ErrNoCredentials`, `noDescriptorsForGroup` the `"no descriptors for from"`
error of `toRequirement`; every other error of the call (field filter
errors, marshalling errors, ...) is embedded as `other`. -/
inductive PErr where
  | noCredentials
  | noDescriptorsForGroup (group : String)
  | other (msg : String)
deriving DecidableEq, Repr

/-! ## Requirement tree builder (`toRequirement`, `makeRequirement`,
`makeRequirementsForMatch`) -/

/-- Go `contains(data []string, e string)`. -/
def strListContains (data : List String) (e : String) : Bool :=
  data.any (fun el => el = e)

mutual

/-- Go `toRequirement`: resolve `From` by group filtering (failing with the
no-descriptors error when the group matches nothing) or descend into
`FromNested`; when `Rule == All` the count is overwritten with the resolved
child count. -/
def toRequirement (descriptors : List InputDescriptor) :
    SubmissionRequirement → Except PErr Requirement
  | .mk name purpose rule count mn mx fromGroup fromNested =>
    if fromGroup ≠ "" then
      let inputDescriptors := descriptors.filter (fun d => strListContains d.group fromGroup)
      let totalCount := inputDescriptors.length
      if totalCount = 0 then .error (.noDescriptorsForGroup fromGroup)
      else
        .ok (.mk name purpose rule (if rule = ruleAll then (totalCount : Int) else count)
          mn mx inputDescriptors [])
    else
      match toRequirementList descriptors fromNested with
      | .error e => .error e
      | .ok nested =>
        .ok (.mk name purpose rule (if rule = ruleAll then (nested.length : Int) else count)
          mn mx [] nested)

/-- The child loop of Go `toRequirement` over `sr.FromNested`. -/
def toRequirementList (descriptors : List InputDescriptor) :
    List SubmissionRequirement → Except PErr (List Requirement)
  | [] => .ok []
  | sr :: rest =>
    match toRequirement descriptors sr with
    | .error e => .error e
    | .ok r =>
      match toRequirementList descriptors rest with
      | .error e => .error e
      | .ok rs => .ok (r :: rs)

end

/-- Go `makeRequirement` (the Create-Presentation path): with no submission
requirements it returns a single leaf whose `Count` is the number of
descriptors and whose other fields are Go zero values (in particular the
rule is the empty string). -/
def makeRequirement (requirements : List SubmissionRequirement)
    (descriptors : List InputDescriptor) : Except PErr Requirement :=
  if requirements.length = 0 then
    .ok (.mk "" "" "" (descriptors.length : Int) 0 0 descriptors [])
  else
    match toRequirementList descriptors requirements with
    | .error e => .error e
    | .ok nested => .ok (.mk "" "" "" (requirements.length : Int) 0 0 [] nested)

/-- Go `makeRequirementsForMatch` (the Match-Requirements path): with no
submission requirements it returns a single leaf whose rule is `All`. -/
def makeRequirementsForMatch (requirements : List SubmissionRequirement)
    (descriptors : List InputDescriptor) : Except PErr (List Requirement) :=
  if requirements.length = 0 then
    .ok [.mk "" "" ruleAll (descriptors.length : Int) 0 0 descriptors []]
  else
    toRequirementList descriptors requirements

/-! ## Strings (`strings.Index`, `strings.Contains`, `tmpID`, `trimTmpID`)

Strings are handled at the level of their character lists (`String.data`).
The transient marker is pure ASCII, so a byte offset returned by Go
`strings.Index` coincides with a character offset: an ASCII pattern cannot
match in the middle of a UTF-8 encoded character. -/

/-- Go `strings.Index` on character lists: the first offset at which `pat`
is a prefix of the remainder of `s`, or `none` (Go `-1`). -/
def strIndex (s pat : List Char) : Option Nat :=
  match s with
  | [] => if pat <+: ([] : List Char) then some 0 else none
  | c :: t => if pat <+: (c :: t) then some 0 else (strIndex t pat).map (· + 1)

/-- Go `strings.Contains`. -/
def goContains (s sub : String) : Bool :=
  (strIndex s.data sub.data).isSome

/-- Go `tmpID`: appends the transient marker and a fresh uuid to the
credential id.  The uuid produced by the external generator is a
parameter. -/
def tmpID (id uuid : String) : String :=
  id ++ tmpEnding ++ uuid

/-- Go `trimTmpID`: cuts the id at the first occurrence of the transient
marker, returning it unchanged when the marker does not occur. -/
def trimTmpID (id : String) : String :=
  match strIndex id.data tmpEnding.data with
  | none => id
  | some idx => ⟨id.data.take idx⟩

/-! ## Credential model

Go `*verifiable.Credential` is embedded with the fields the filtering core
reads.  `jwtAlg` stands for the result of the external `jwt.Parse` JOSE
header extraction applied to the `jwt` field (`none` embeds both a parse
failure and a missing `alg` header); `schemaIDs` stands for the set of type
IRIs resolved by the external JSON-LD context machinery (`getContext` /
`typeFoundInContext`), i.e. the `schemaSatisfied` set of `filterSchema`. -/
structure Cred where
  id : String
  jwt : String
  jwtAlg : Option String
  proofTypes : List String
  schemaIDs : List String
deriving DecidableEq, Repr

/-- Result maps `descriptor id → credentials` of `applyRequirement`. -/
abbrev ResMap := List (String × List Cred)

/-! ## Field filter (`filterField`, `validatePatch`)

The external collaborators are parameters: `getPath` embeds
`jsonpath.Get(path, credentialMap)` (`none` embeds an evaluation error,
i.e. no match), and `validate` embeds `validatePatch(schema, patch)` for
the field's filter (returning `none` on success; when the field has no
filter the Go code passes a nil schema and `validatePatch` always
succeeds, embedded by `validate = fun patch => none`). -/

/-- Status the Go `filterField` loop can record for one path. -/
inductive FieldErr where
  | pathNotApplicable
  | marshalFailure (msg : String)
deriving DecidableEq, Repr

/-- The path loop of Go `filterField`, threading `lastErr`. -/
def filterFieldLoop (validate : α → Option FieldErr) (getPath : String → Option α) :
    List String → Option FieldErr → Option FieldErr
  | [], lastErr => lastErr
  | path :: rest, _lastErr =>
    match getPath path with
    | some patch =>
      match validate patch with
      | none => none
      | some e => filterFieldLoop validate getPath rest (some e)
    | none => filterFieldLoop validate getPath rest (some .pathNotApplicable)

/-- Go `filterField`: try the field's paths in order, starting with no
recorded error; `none` means the field is applicable. -/
def filterField (validate : α → Option FieldErr) (getPath : String → Option α)
    (paths : List String) : Option FieldErr :=
  filterFieldLoop validate getPath paths none

/-- Status one path yields in `filterField`: no JSONPath match records
`pathNotApplicable`; a match is validated. -/
def pathStatus (validate : α → Option FieldErr) (getPath : String → Option α)
    (path : String) : Option FieldErr :=
  match getPath path with
  | none => some .pathNotApplicable
  | some patch => validate patch

/-! ## Format filter (`filterFormat`, `algMatch`, `credByProof`) -/

/-- Go `JwtType`. -/
structure JwtType where
  alg : List String
deriving DecidableEq, Repr

/-- Go `LdpType`. -/
structure LdpType where
  proofType : List String
deriving DecidableEq, Repr

/-- Go `Format` (each field is a nilable pointer). -/
structure Format where
  jwt : Option JwtType
  jwtVC : Option JwtType
  jwtVP : Option JwtType
  ldp : Option LdpType
  ldpVC : Option LdpType
  ldpVP : Option LdpType
deriving DecidableEq, Repr

/-- Go `strings.EqualFold` (ASCII case folding suffices for JOSE `alg`
names). -/
def eqFold (a b : String) : Bool :=
  a.toLower = b.toLower

/-- Go `algMatch`: a nil `JwtType` matches nothing; otherwise the
credential's JOSE `alg` must appear case-insensitively in `alg`. -/
def algMatch (credAlg : String) (jwtType : Option JwtType) : Bool :=
  match jwtType with
  | none => false
  | some t => t.alg.any (fun b => eqFold credAlg b)

/-- Go `hasProofWithType`: some proof of the credential has the given
`type`. -/
def hasProofWithType (c : Cred) (proofType : String) : Bool :=
  c.proofTypes.any (fun t => t = proofType)

/-- Go `credByProof`: a nil `LdpType` matches nothing; otherwise some
`proof_type` entry must be carried by the credential. -/
def credByProof (c : Cred) (ldp : Option LdpType) : Bool :=
  match ldp with
  | none => false
  | some t => t.proofType.any (fun pt => hasProofWithType c pt)

/-- The JOSE `alg` of the credential's JWT form, as `filterFormat` sees it:
only a credential with a non-empty `JWT` string is parsed; a parse failure
(`jwtAlg = none`) makes the credential skip every `jwt*` bucket. -/
def credJwtAlg (c : Cred) : Option String :=
  if c.jwt = "" then none else c.jwtAlg

/-- Membership of a credential in a `jwt*` bucket of `filterFormat`. -/
def credInJwtBucket (c : Cred) (jwtType : Option JwtType) : Bool :=
  match credJwtAlg c with
  | none => false
  | some a => algMatch a jwtType

/-- The six bucket lists built by the credential loop of `filterFormat`. -/
structure Buckets where
  ldpCreds : List Cred
  ldpvcCreds : List Cred
  ldpvpCreds : List Cred
  jwtCreds : List Cred
  jwtvcCreds : List Cred
  jwtvpCreds : List Cred
deriving DecidableEq, Repr

/-- The credential loop of Go `filterFormat`: each credential is appended
to every bucket whose predicate it satisfies, preserving input order. -/
def formatFold (format : Format) : List Cred → Buckets
  | [] => ⟨[], [], [], [], [], []⟩
  | c :: rest =>
    let bs := formatFold format rest
    ⟨if credByProof c format.ldp then c :: bs.ldpCreds else bs.ldpCreds,
     if credByProof c format.ldpVC then c :: bs.ldpvcCreds else bs.ldpvcCreds,
     if credByProof c format.ldpVP then c :: bs.ldpvpCreds else bs.ldpvpCreds,
     if credInJwtBucket c format.jwt then c :: bs.jwtCreds else bs.jwtCreds,
     if credInJwtBucket c format.jwtVC then c :: bs.jwtvcCreds else bs.jwtvcCreds,
     if credInJwtBucket c format.jwtVP then c :: bs.jwtvpCreds else bs.jwtvpCreds⟩

/-- Go `filterFormat`: return the first non-empty bucket, in the fixed
order `ldp`, `ldp_vc`, `ldp_vp`, `jwt`, `jwt_vc`, `jwt_vp`, with its tag;
`("", [])` when every bucket is empty. -/
def filterFormat (format : Format) (credentials : List Cred) : String × List Cred :=
  let bs := formatFold format credentials
  if bs.ldpCreds.length > 0 then (FormatLDP, bs.ldpCreds)
  else if bs.ldpvcCreds.length > 0 then (FormatLDPVC, bs.ldpvcCreds)
  else if bs.ldpvpCreds.length > 0 then (FormatLDPVP, bs.ldpvpCreds)
  else if bs.jwtCreds.length > 0 then (FormatJWT, bs.jwtCreds)
  else if bs.jwtvcCreds.length > 0 then (FormatJWTVC, bs.jwtvcCreds)
  else if bs.jwtvpCreds.length > 0 then (FormatJWTVP, bs.jwtvpCreds)
  else ("", [])

/-! ## Schema gate (`filterSchema`) -/

/-- Go `Schema` (an input descriptor schema entry). -/
structure Schema where
  uri : String
  required : Bool
deriving DecidableEq, Repr

/-- The per-credential entry loop of Go `filterSchema`: `sat` is the
credential's `schemaSatisfied` set, `acc` the `applicable` flag.  A
matched entry sets the flag; an unmatched required entry clears it and
breaks. -/
def schemaApplicableLoop (sat : List String) : List Schema → Bool → Bool
  | [], acc => acc
  | s :: rest, acc =>
    if strListContains sat s.uri then schemaApplicableLoop sat rest true
    else if s.required then false
    else schemaApplicableLoop sat rest acc

/-- Go `filterSchema` restricted to its per-credential acceptance logic:
the resolution of type IRIs through the external JSON-LD loader is
embedded in `Cred.schemaIDs` (the failure mode of the loader, which makes
the Go function reject all credentials, is outside this model). -/
def filterSchema (schemas : List Schema) (credentials : List Cred) : List Cred :=
  credentials.filter (fun c => schemaApplicableLoop c.schemaIDs schemas false)

/-! ## Selective-disclosure reshaper (`createNewCredential`)

The JSON documents manipulated by `sjson.SetBytes` / `gjson.GetBytes` are
embedded as JSON trees whose objects are field lists, indexed by the
gjson-style dotted paths the Go code builds by joining plain keys with
`"."`.  A set replaces the value at the path wholesale, so a write at an
ancestor path replaces the whole subtree (clobbering everything below it)
and a write through a non-object value discards that value — matching
sjson.  Numeric array segments are treated as object keys, a
simplification irrelevant to the claims settled here.  `getJSONPaths`
(the external JSONPath evaluator over the source credential) is a
parameter producing, for a field's `path` list, the
`(newPath, originalPath)` pairs of `getPath`; `srcGet` embeds
`gjson.GetBytes(src, originalPath).Value()` and may return any JSON
value, object subtrees included. -/

/-- JSON values for the reshaper model. -/
inductive Json where
  | b (bv : Bool)
  | s (sv : String)
  | n (iv : Int)
  | null
  | obj (fields : List (String × Json))

/-- The reshaped document is a JSON tree. -/
abbrev Doc := Json

/-- Fields of a JSON object; any other value has none (sjson replaces a
non-object parent when writing through it). -/
def jsonFields : Json → List (String × Json)
  | .obj fs => fs
  | _ => []

/-- Split a character list at every dot (Go `strings.Split(p, ".")`). -/
def splitDot : List Char → List (List Char)
  | [] => [[]]
  | c :: rest =>
    match splitDot rest with
    | [] => [[c]]
    | seg :: segs => if c = '.' then [] :: seg :: segs else (c :: seg) :: segs

/-- Segments of a dotted gjson/sjson path (the Go code builds these paths
by joining plain keys with a dot). -/
def pathSegs (p : String) : List String :=
  (splitDot p.data).map String.mk

/-- Read a field of an object field list. -/
def lookupField : List (String × Json) → String → Option Json
  | [], _ => none
  | (k', w) :: rest, k => if k' = k then some w else lookupField rest k

/-- Replace the field `k`, transforming its value with `f` (`null` when
absent, as sjson materialises missing intermediates). -/
def updateField (fs : List (String × Json)) (k : String) (f : Json → Json) :
    List (String × Json) :=
  match fs with
  | [] => [(k, f Json.null)]
  | (k', w) :: rest => if k' = k then (k, f w) :: rest else (k', w) :: updateField rest k f

/-- Embeds `sjson.SetBytes` along a segment path: the value at the path is
replaced wholesale, intermediate objects are created, and non-object
values on the way are discarded. -/
def jsonSetSegs : List String → Json → Json → Json
  | [], _, v => v
  | k :: rest, d, v => .obj (updateField (jsonFields d) k (fun w => jsonSetSegs rest w v))

/-- Embeds a gjson read along a segment path. -/
def jsonGetSegs : List String → Json → Option Json
  | [], d => some d
  | k :: rest, d =>
    match d with
    | .obj fs =>
      match lookupField fs k with
      | some w => jsonGetSegs rest w
      | none => none
    | _ => none

/-- Embeds `sjson.SetBytes doc path val`. -/
def setPath (doc : Doc) (path : String) (val : Json) : Doc :=
  jsonSetSegs (pathSegs path) doc val

/-- Embeds a gjson read of the document built by the reshaper. -/
def docGet (doc : Doc) (path : String) : Option Json :=
  jsonGetSegs (pathSegs path) doc

/-- Two dotted paths overlap when either's segment list is a prefix of the
other's: a write at one changes what a read at the other sees (equal
paths, an ancestor write replacing the subtree, or a descendant write
rebuilding the node). -/
def pathsOverlap (q p : String) : Prop :=
  pathSegs q <+: pathSegs p ∨ pathSegs p <+: pathSegs q

instance (q p : String) : Decidable (pathsOverlap q p) :=
  inferInstanceAs (Decidable (pathSegs q <+: pathSegs p ∨ pathSegs p <+: pathSegs q))

/-- A constraint field as `createNewCredential` reads it (`Path` feeds the
external evaluator, `Predicate` drives the substitution). -/
structure CNCField where
  path : List String
  predicate : Option String
deriving DecidableEq, Repr

/-- Go `strings.Join(strings.Split(p, ".")[:len-1], ".")`: the parent of a
dotted path (empty for a one-segment path). -/
def parentPath (p : String) : String :=
  String.intercalate "." ((pathSegs p).dropLast)

/-- Inner path loop of Go `createNewCredential` for one field: skips
`credentialSchema` paths, substitutes `true` for a required predicate,
collects reveal paths for BBS+, and writes into the reshaped document.
State: `(limitedCred, modifiedByPredicate, explicitPaths)`. -/
def cncPathLoop (ld bbs : Bool) (srcGet : String → Json) (f : CNCField) :
    List (String × String) → Doc × Bool × List String → Doc × Bool × List String
  | [], st => st
  | (p0, p1) :: rest, (doc, mbp, exp) =>
    if goContains p0 credentialSchemaStr then
      cncPathLoop ld bbs srcGet f rest (doc, mbp, exp)
    else
      let mbp := if mbp then mbp else prefIsRequired f.predicate
      let val : Json :=
        if f.predicate = none ∨ f.predicate ≠ some requiredPref then srcGet p1
        else .b true
      let exp :=
        if ld ∧ bbs then
          if exp.contains (parentPath p0) then exp else exp ++ [parentPath p0]
        else exp
      cncPathLoop ld bbs srcGet f rest (setPath doc p0 val, mbp, exp)

/-- Field loop of Go `createNewCredential`. -/
def cncFieldsLoop (ld bbs : Bool) (jpaths : List String → List (String × String))
    (srcGet : String → Json) :
    List CNCField → Doc × Bool × List String → Doc × Bool × List String
  | [], st => st
  | f :: rest, st =>
    cncFieldsLoop ld bbs jpaths srcGet rest (cncPathLoop ld bbs srcGet f (jpaths f.path) st)

/-- Go `createNewCredential`, up to the emission boundary: `ld` is
`constraints.LimitDisclosure.isRequired()`, `bbs` is `hasBBS(credential)`,
`template` the starting document.  In the plain-projection branch the
emitted credential is `ParseCredential` of the final document, returned
here as `some doc`; the BBS+ derivation branch hands the reveal document to
the external `GenerateBBSSelectiveDisclosure` collaborator and is embedded
as `none`. -/
def createNewCredential (ld bbs : Bool) (jpaths : List String → List (String × String))
    (srcGet : String → Json) (fields : List CNCField) (template : Doc) :
    Option Doc :=
  let st := cncFieldsLoop ld bbs jpaths srcGet fields (template, false, [])
  if ¬ ld ∨ ¬ bbs ∨ st.2.1 then some st.1 else none

/-! ## Submission assembler (`merge`)

The recursive Go type `InputDescriptorMapping` is used by `merge` with
exactly one nesting level; it is embedded as a two-level record. -/

/-- The `path_nested` entry of a descriptor map entry. -/
structure NestedMapping where
  id : String
  format : String
  path : String
deriving DecidableEq, Repr

/-- Go `InputDescriptorMapping` (outer level). -/
structure InputDescriptorMapping where
  id : String
  format : String
  path : String
  pathNested : Option NestedMapping
deriving DecidableEq, Repr

/-- Go `fmt.Sprintf("$.verifiableCredential[%d]", n)`. -/
def vcPath (n : Nat) : String :=
  "$.verifiableCredential[" ++ toString n ++ "]"

/-- State threaded by the `merge` loops: `setOfCreds` maps an emitted
credential id to the value recorded for it, `setOfDescriptors` is the map
that the source never writes to, `result` the output credential list and
`descriptors` the descriptor map under construction. -/
structure MergeSt where
  setOfCreds : List (String × Nat)
  setOfDescriptors : List (String × Unit)
  result : List Cred
  descriptors : List InputDescriptorMapping
deriving Repr

/-- Body of the inner credential loop of Go `merge`.  A first-seen
credential has its id trimmed (the in-place Go mutation is modelled by
value) and is appended to the result, recording `len(descriptors)` —
the number of descriptor map entries so far — under its trimmed id.
The `setOfDescriptors` guard always passes because the map is never
written. -/
def mergeStep (presentationFormat descriptorID : String) (st : MergeSt) (c : Cred) :
    MergeSt :=
  let (c, soc, res) :=
    match alookup st.setOfCreds c.id with
    | some _ => (c, st.setOfCreds, st.result)
    | none =>
      let c' := { c with id := trimTmpID c.id }
      (c', alistInsert st.setOfCreds c'.id st.descriptors.length, st.result ++ [c'])
  let vcFormat := if c.jwt ≠ "" then FormatJWTVC else FormatLDPVC
  let descs :=
    match alookup st.setOfDescriptors (c.id ++ "-" ++ c.id) with
    | some _ => st.descriptors
    | none =>
      st.descriptors ++
        [{ id := descriptorID, format := presentationFormat, path := "$",
           pathNested := some { id := descriptorID, format := vcFormat,
                                path := vcPath ((alookup soc c.id).getD 0) } }]
  { setOfCreds := soc, setOfDescriptors := st.setOfDescriptors,
    result := res, descriptors := descs }

/-- The key loop of Go `merge` (keys in sorted order supplied by the
caller). -/
def mergeKeyLoop (presentationFormat : String) (m : ResMap) :
    List String → MergeSt → MergeSt
  | [], st => st
  | k :: rest, st =>
    mergeKeyLoop presentationFormat m rest
      (((alookup m k).getD []).foldl (mergeStep presentationFormat k) st)

/-- Lexicographic comparison of character lists.  Go compares strings
bytewise; bytewise UTF-8 order coincides with code-point order, so the
character-level comparison is faithful. -/
def charListLt : List Char → List Char → Bool
  | [], [] => false
  | [], _ :: _ => true
  | _ :: _, [] => false
  | a :: as, b :: bs =>
    if a.val < b.val then true
    else if b.val < a.val then false
    else charListLt as bs

/-- Go `<` on strings. -/
def strLt (a b : String) : Bool :=
  charListLt a.data b.data

/-- Insertion step for sorting strings ascending (Go `sort.Strings`). -/
def insertStr (s : String) : List String → List String
  | [] => [s]
  | t :: rest => if strLt s t then s :: t :: rest else t :: insertStr s rest

/-- Sort strings ascending (Go `sort.Strings`). -/
def sortStrings (l : List String) : List String :=
  l.foldr insertStr []

/-- Insertion step for sorting descriptor map entries by `id`
(Go `sort.Sort(byID ...)`). -/
def insertByID (d : InputDescriptorMapping) :
    List InputDescriptorMapping → List InputDescriptorMapping
  | [] => [d]
  | e :: rest => if strLt d.id e.id then d :: e :: rest else e :: insertByID d rest

/-- Sort descriptor map entries ascending by `id`. -/
def sortByID (l : List InputDescriptorMapping) : List InputDescriptorMapping :=
  l.foldr insertByID []

/-- Go `merge`: walk the descriptor ids in sorted order, emit each
first-seen credential with its transient suffix trimmed, emit one
descriptor map entry per (descriptor, credential) pair, and finally sort
the descriptor map by id. -/
def merge (presentationFormat : String) (setOfCredentials : ResMap) :
    List Cred × List InputDescriptorMapping :=
  let keys := sortStrings (setOfCredentials.map Prod.fst)
  let st := mergeKeyLoop presentationFormat setOfCredentials keys ⟨[], [], [], []⟩
  (st.result, sortByID st.descriptors)

/-! ## Requirement evaluator (`applyRequirement`)

The per-descriptor filter pipeline
(`filterCredentialsThatMatchDescriptor`: framing, format filter, schema
gate, constraint filter) is passed as the parameter `fd`, returning the
descriptor-level format tag and the filtered credentials, or an error. -/

/-- Per-descriptor filter pipeline parameter. -/
abbrev DescFilter := InputDescriptor → Except PErr (String × List Cred)

/-- Descriptor loop of the leaf case of Go `applyRequirement`: an error
aborts; a non-empty descriptor format overrides the VP format; descriptors
with a non-empty filtered set are recorded. -/
def leafLoop (fd : DescFilter) :
    List InputDescriptor → String → ResMap → Except PErr (String × ResMap)
  | [], vpFormat, result => .ok (vpFormat, result)
  | d :: rest, vpFormat, result =>
    match fd d with
    | .error e => .error e
    | .ok (descFormat, filtered) =>
      leafLoop fd rest
        (if descFormat ≠ "" then descFormat else vpFormat)
        (if filtered.length ≠ 0 then alistInsert result d.id filtered else result)

/-- The credential→descriptor index built by the nested case of Go
`applyRequirement`: trimmed credential id → (descriptor id → credential
id). -/
abbrev SetMap := List (String × List (String × String))

/-- One `set[trimTmpID(cred.ID)][desc] = cred.ID` assignment. -/
def setInsertCred (s : SetMap) (desc credID : String) : SetMap :=
  let key := trimTmpID credID
  match alookup s key with
  | none => alistInsert s key [(desc, credID)]
  | some inner => alistInsert s key (alistInsert inner desc credID)

/-- Registration of one child result map into the index. -/
def setAddRes (s : SetMap) (res : ResMap) : SetMap :=
  res.foldl (fun s kv => kv.2.foldl (fun s c => setInsertCred s kv.1 c.id) s) s

/-- The `exclude` set of Go `applyRequirement`: for every credential whose
descriptor count violates the branch cardinality, every `desc + credID`
key is excluded. -/
def excludeSet (count mn mx : Int) (s : SetMap) : List String :=
  s.foldl
    (fun ex kv =>
      if isLenApplicable count mn mx kv.2.length then ex
      else ex ++ kv.2.map (fun dc => dc.1 ++ dc.2))
    []

/-- Go `mergeNestedResult`: merge the child result maps in order,
deduplicating per descriptor bucket by credential id and omitting excluded
`(descriptor, credential)` pairs among the newly added credentials. -/
def mergeNestedResult (nr : List ResMap) (exclude : List String) : ResMap :=
  nr.foldl
    (fun result res =>
      res.foldl
        (fun result kv =>
          let prior := (alookup result kv.1).getD []
          let step1 := prior.foldl
            (fun (acc : List String × List Cred) c =>
              if acc.1.contains c.id then acc else (acc.1 ++ [c.id], acc.2 ++ [c]))
            ([], [])
          let step2 := kv.2.foldl
            (fun (acc : List String × List Cred) c =>
              if acc.1.contains c.id then acc
              else if exclude.contains (kv.1 ++ c.id) then acc
              else (acc.1 ++ [c.id], acc.2 ++ [c]))
            step1
          alistInsert result kv.1 step2.2)
        result)
    []

mutual

/-- Go `applyRequirement`.  Leaf (descriptors present): run the filter
pipeline per descriptor, then check the cardinality of the number of
matched descriptors, signalling `noCredentials` on failure.  Branch:
evaluate the children, skipping those that return `noCredentials` and
aborting on any other error, index which descriptors every credential
satisfies, exclude the pairs of credentials violating the branch
cardinality and merge the child maps.  The branch result carries no
error even when every child failed. -/
def applyRequirement (fd : DescFilter) : Requirement → Except PErr (String × ResMap)
  | .mk _ _ _ count mn mx descs nested =>
    if descs.length ≠ 0 then
      match leafLoop fd descs FormatLDPVP [] with
      | .error e => .error e
      | .ok (vpFormat, result) =>
        if isLenApplicable count mn mx result.length then .ok (vpFormat, result)
        else .error .noCredentials
    else
      match branchLoop fd nested FormatLDPVP [] [] with
      | .error e => .error e
      | .ok (vpFormat, nestedResult, set) =>
        .ok (vpFormat, mergeNestedResult nestedResult (excludeSet count mn mx set))

/-- Child loop of the nested case of Go `applyRequirement`, threading the
VP format, the collected child results and the credential index. -/
def branchLoop (fd : DescFilter) :
    List Requirement → String → List ResMap → SetMap →
    Except PErr (String × List ResMap × SetMap)
  | [], vpFormat, nr, s => .ok (vpFormat, nr, s)
  | r :: rest, vpFormat, nr, s =>
    match applyRequirement fd r with
    | .error e =>
      if e = .noCredentials then branchLoop fd rest vpFormat nr s else .error e
    | .ok (vpFmt, res) =>
      let s := setAddRes s res
      if res.length ≠ 0 then branchLoop fd rest vpFmt (nr ++ [res]) s
      else branchLoop fd rest vpFormat nr s

end

/-! ## Supporting lemmas -/

theorem strListContains_iff (data : List String) (e : String) :
    strListContains data e = true ↔ e ∈ data := by
  simp [strListContains, List.any_eq_true]

theorem schemaApplicableLoop_false (sat : List String) (schemas : List Schema)
    (h : ∃ s ∈ schemas, s.required = true ∧ s.uri ∉ sat) :
    ∀ acc, schemaApplicableLoop sat schemas acc = false := by
  induction schemas with
  | nil => simp at h
  | cons s rest ih =>
    intro acc
    rcases h with ⟨t, ht, htr, htm⟩
    rcases List.mem_cons.mp ht with h' | h'
    · subst h'
      have hc : strListContains sat t.uri = false := by
        cases hcc : strListContains sat t.uri
        · rfl
        · exact absurd ((strListContains_iff _ _).mp hcc) htm
      simp [schemaApplicableLoop, hc, htr]
    · cases hc : strListContains sat s.uri with
      | true => simp [schemaApplicableLoop, hc, ih ⟨t, h', htr, htm⟩]
      | false =>
        cases hr : s.required with
        | true => simp [schemaApplicableLoop, hc, hr]
        | false => simp [schemaApplicableLoop, hc, hr, ih ⟨t, h', htr, htm⟩]

theorem schemaApplicableLoop_all_required (sat : List String) (schemas : List Schema)
    (h : ∀ s ∈ schemas, s.required = true → s.uri ∈ sat) :
    ∀ acc, schemaApplicableLoop sat schemas acc =
      (acc || schemas.any (fun s => strListContains sat s.uri)) := by
  induction schemas with
  | nil => intro acc; simp [schemaApplicableLoop]
  | cons s rest ih =>
    intro acc
    have ih' := ih (fun t ht => h t (List.mem_cons_of_mem _ ht))
    cases hc : strListContains sat s.uri with
    | true => simp [schemaApplicableLoop, hc, ih', List.any_cons]
    | false =>
      cases hr : s.required with
      | true =>
        have := (strListContains_iff sat s.uri).mpr (h s (List.mem_cons_self ..) hr)
        rw [hc] at this
        exact absurd this (by simp)
      | false => simp [schemaApplicableLoop, hc, hr, ih', List.any_cons]

theorem filterFieldLoop_exists_ok {α : Type} (validate : α → Option FieldErr)
    (getPath : String → Option α) (paths : List String)
    (h : ∃ p ∈ paths, pathStatus validate getPath p = none) :
    ∀ acc, filterFieldLoop validate getPath paths acc = none := by
  induction paths with
  | nil => simp at h
  | cons p rest ih =>
    intro acc
    rcases h with ⟨q, hq, hst⟩
    rcases List.mem_cons.mp hq with h' | h'
    · subst h'
      unfold pathStatus at hst
      cases hg : getPath q with
      | none => simp [hg] at hst
      | some patch =>
        rw [hg] at hst
        simp only [] at hst
        simp [filterFieldLoop, hg, hst]
    · cases hg : getPath p with
      | none => simp [filterFieldLoop, hg, ih ⟨q, h', hst⟩]
      | some patch =>
        cases hv : validate patch with
        | none => simp [filterFieldLoop, hg, hv]
        | some e => simp [filterFieldLoop, hg, hv, ih ⟨q, h', hst⟩]

theorem filterFieldLoop_step {α : Type} (validate : α → Option FieldErr)
    (getPath : String → Option α) (p : String) (rest : List String)
    (hp : pathStatus validate getPath p ≠ none) (acc : Option FieldErr) :
    filterFieldLoop validate getPath (p :: rest) acc =
      filterFieldLoop validate getPath rest (pathStatus validate getPath p) := by
  unfold pathStatus at hp ⊢
  cases hg : getPath p with
  | none => simp [filterFieldLoop, hg]
  | some patch =>
    rw [hg] at hp
    simp only [] at hp
    cases hv : validate patch with
    | none => exact absurd hv hp
    | some e => simp [filterFieldLoop, hg, hv]

theorem filterFieldLoop_all_fail {α : Type} (validate : α → Option FieldErr)
    (getPath : String → Option α) (paths : List String)
    (h : ∀ p ∈ paths, pathStatus validate getPath p ≠ none) :
    ∀ acc, filterFieldLoop validate getPath paths acc =
      ((paths.getLast?).map (pathStatus validate getPath)).getD acc := by
  induction paths with
  | nil => intro acc; simp [filterFieldLoop]
  | cons p rest ih =>
    intro acc
    have hp := h p (List.mem_cons_self ..)
    rw [filterFieldLoop_step validate getPath p rest hp acc]
    rw [ih (fun q hq => h q (List.mem_cons_of_mem _ hq))]
    cases hq : rest.getLast? with
    | none =>
      have hrest : rest = [] := List.getLast?_eq_none_iff.mp hq
      subst hrest
      simp
    | some q =>
      have hrest : rest ≠ [] := by
        intro hcon
        subst hcon
        simp at hq
      obtain ⟨b, rest', rfl⟩ := List.exists_cons_of_ne_nil hrest
      rw [List.getLast?_cons_cons]
      simp [hq]

theorem formatFold_eq_filters (format : Format) (cs : List Cred) :
    formatFold format cs =
      ⟨cs.filter (fun c => credByProof c format.ldp),
       cs.filter (fun c => credByProof c format.ldpVC),
       cs.filter (fun c => credByProof c format.ldpVP),
       cs.filter (fun c => credInJwtBucket c format.jwt),
       cs.filter (fun c => credInJwtBucket c format.jwtVC),
       cs.filter (fun c => credInJwtBucket c format.jwtVP)⟩ := by
  induction cs with
  | nil => rfl
  | cons c rest ih => simp [formatFold, ih, List.filter_cons]

theorem credInJwtBucket_iff (c : Cred) (t : Option JwtType) :
    credInJwtBucket c t = true ↔
      ∃ a, credJwtAlg c = some a ∧ algMatch a t = true := by
  unfold credInJwtBucket
  cases h : credJwtAlg c with
  | none => simp
  | some a => simp [h]

/-! ## Claim theorems -/

/-- C10: a requirement whose `count`, `min` and `max` are all zero has
every cardinality check skipped, so `isLenApplicable` accepts every value,
including zero. -/
theorem isLenApplicable_zero_accepts_all (name purpose rule : String)
    (ds : List InputDescriptor) (ns : List Requirement) (val : Nat) :
    (Requirement.mk name purpose rule 0 0 0 ds ns).isLenApplicable val = true := by
  simp [Requirement.isLenApplicable, isLenApplicable]

/-- C3 counterexample: with no submission requirements the
Create-Presentation builder `makeRequirement` produces the leaf with its
rule left as the Go zero value `""`, not `"all"` as the claim states. -/
theorem makeRequirement_default_rule_not_all :
    makeRequirement [] [InputDescriptor.mk "a" []] =
      .ok (.mk "" "" "" 1 0 0 [InputDescriptor.mk "a" []] []) ∧
    (Requirement.mk "" "" "" 1 0 0 [InputDescriptor.mk "a" []] []).rule ≠ ruleAll :=
  ⟨rfl, by decide⟩

/-- C3 amended: with no submission requirements both paths produce a
single leaf holding every descriptor with `count` equal to the number of
descriptors; the Match-Requirements path sets `rule = all` while the
Create-Presentation path leaves the rule empty (behaviourally equivalent,
since only the cardinalities are evaluated downstream). -/
theorem default_requirement_tree_shape (ds : List InputDescriptor) :
    makeRequirement [] ds = .ok (.mk "" "" "" (ds.length : Int) 0 0 ds []) ∧
    makeRequirementsForMatch [] ds =
      .ok [.mk "" "" ruleAll (ds.length : Int) 0 0 ds []] :=
  ⟨rfl, rfl⟩

/-- C6: for a non-empty descriptor schema list, the schema gate accepts a
credential iff at least one schema entry's uri (required or optional) is
among the credential's resolved type IRIs and no required entry is
unmatched. -/
theorem filterSchema_accept_iff (schemas : List Schema) (creds : List Cred) (c : Cred)
    (hne : schemas ≠ []) :
    c ∈ filterSchema schemas creds ↔
      c ∈ creds ∧
        ((∃ s ∈ schemas, s.uri ∈ c.schemaIDs) ∧
         (∀ s ∈ schemas, s.required = true → s.uri ∈ c.schemaIDs)) := by
  have _ := hne
  rw [filterSchema, List.mem_filter]
  constructor
  · rintro ⟨hc, hloop⟩
    by_cases hall : ∀ s ∈ schemas, s.required = true → s.uri ∈ c.schemaIDs
    · refine ⟨hc, ?_, hall⟩
      rw [schemaApplicableLoop_all_required _ _ hall false] at hloop
      simpa [List.any_eq_true, strListContains_iff] using hloop
    · push_neg at hall
      rw [schemaApplicableLoop_false _ _ hall false] at hloop
      exact absurd hloop (by simp)
  · rintro ⟨hc, ⟨t, ht, htm⟩, hall⟩
    refine ⟨hc, ?_⟩
    rw [schemaApplicableLoop_all_required _ _ hall false]
    simp only [Bool.false_or, List.any_eq_true]
    exact ⟨t, ht, (strListContains_iff _ _).mpr htm⟩

/-- C6 witness at a concrete credential and schema list. -/
theorem filterSchema_accept_iff_witness :
    ([Schema.mk "u" true] ≠ ([] : List Schema)) ∧
    Cred.mk "c" "" none [] ["u"] ∈
      filterSchema [Schema.mk "u" true] [Cred.mk "c" "" none [] ["u"]] :=
  ⟨by decide,
   (filterSchema_accept_iff [Schema.mk "u" true] [Cred.mk "c" "" none [] ["u"]]
      (Cred.mk "c" "" none [] ["u"]) (by decide)).mpr (by decide)⟩

/-- C4: the field filter tries the paths in order: a path whose JSONPath
evaluation fails records `path-not-applicable`, a matched path whose
validation succeeds (in particular when the field has no filter) makes the
field applicable, a matched path whose validation fails records that
failure; when no path succeeds and the path list is non-empty the result
is the status recorded for the last path. -/
theorem filterField_path_order_spec {α : Type} (validate : α → Option FieldErr)
    (getPath : String → Option α) (paths : List String) :
    ((∃ p ∈ paths, pathStatus validate getPath p = none) →
      filterField validate getPath paths = none) ∧
    ((∀ p ∈ paths, pathStatus validate getPath p ≠ none) →
      ∀ hne : paths ≠ [],
        filterField validate getPath paths =
          pathStatus validate getPath (paths.getLast hne)) :=
  ⟨fun h => filterFieldLoop_exists_ok validate getPath paths h none,
   fun h hne => by
    rw [filterField, filterFieldLoop_all_fail validate getPath paths h none,
      List.getLast?_eq_getLast_of_ne_nil hne]
    rfl⟩

/-- C4 witness: a first path with no match followed by a path whose value
validates makes the field applicable; two failing paths return the status
of the last one. -/
theorem filterField_path_order_spec_witness :
    filterField (fun _ : Nat => none)
      (fun p => if p = "$.b" then some 1 else none) ["$.a", "$.b"] = none ∧
    filterField (fun _ : Nat => some (.marshalFailure "m"))
      (fun p => if p = "$.b" then some 1 else none) ["$.a", "$.b"] =
      some (.marshalFailure "m") :=
  ⟨(filterField_path_order_spec (fun _ : Nat => none)
      (fun p => if p = "$.b" then some 1 else none) ["$.a", "$.b"]).1
      ⟨"$.b", by decide, by decide⟩,
   by
    have h := (filterField_path_order_spec (fun _ : Nat => some (.marshalFailure "m"))
      (fun p => if p = "$.b" then some 1 else none) ["$.a", "$.b"]).2
      (by decide) (by decide)
    simpa using h⟩

/-- C5: the format filter partitions the credentials into the six buckets
(`ldp*` membership through a matching proof type, `jwt*` membership
through a case-insensitively matching JOSE `alg` of the credential's JWT
form) and returns the first non-empty bucket with its tag in the fixed
order `ldp`, `ldp_vc`, `ldp_vp`, `jwt`, `jwt_vc`, `jwt_vp`, or `("", [])`
when every bucket is empty. -/
theorem filterFormat_buckets_spec (format : Format) (cs : List Cred) :
    (∀ c, c ∈ (formatFold format cs).ldpCreds ↔
        c ∈ cs ∧ credByProof c format.ldp = true) ∧
    (∀ c, c ∈ (formatFold format cs).jwtCreds ↔
        c ∈ cs ∧ ∃ a, credJwtAlg c = some a ∧ algMatch a format.jwt = true) ∧
    filterFormat format cs =
      (if cs.filter (fun c => credByProof c format.ldp) ≠ [] then
        (FormatLDP, cs.filter (fun c => credByProof c format.ldp))
      else if cs.filter (fun c => credByProof c format.ldpVC) ≠ [] then
        (FormatLDPVC, cs.filter (fun c => credByProof c format.ldpVC))
      else if cs.filter (fun c => credByProof c format.ldpVP) ≠ [] then
        (FormatLDPVP, cs.filter (fun c => credByProof c format.ldpVP))
      else if cs.filter (fun c => credInJwtBucket c format.jwt) ≠ [] then
        (FormatJWT, cs.filter (fun c => credInJwtBucket c format.jwt))
      else if cs.filter (fun c => credInJwtBucket c format.jwtVC) ≠ [] then
        (FormatJWTVC, cs.filter (fun c => credInJwtBucket c format.jwtVC))
      else if cs.filter (fun c => credInJwtBucket c format.jwtVP) ≠ [] then
        (FormatJWTVP, cs.filter (fun c => credInJwtBucket c format.jwtVP))
      else ("", [])) := by
  refine ⟨?_, ?_, ?_⟩
  · intro c
    rw [formatFold_eq_filters]
    simp [List.mem_filter]
  · intro c
    rw [formatFold_eq_filters]
    simp only [List.mem_filter]
    rw [credInJwtBucket_iff]
  · rw [filterFormat, formatFold_eq_filters]
    simp only [List.length_pos, gt_iff_lt]

/-- Whether the filter pipeline leaves a descriptor with at least one
matching credential. -/
def descMatched (fd : DescFilter) (d : InputDescriptor) : Bool :=
  match fd d with
  | .ok (_, filtered) => filtered.length ≠ 0
  | .error _ => false

theorem leafLoop_spec (fd : DescFilter) (descs : List InputDescriptor) :
    ∀ (fmt : String) (res : ResMap),
    (∀ d ∈ descs, ∃ x, fd d = .ok x) →
    (descs.map InputDescriptor.id).Nodup →
    (∀ d ∈ descs, alookup res d.id = none) →
    ∃ fmt' res', leafLoop fd descs fmt res = .ok (fmt', res') ∧
      res'.length = res.length + descs.countP (fun d => descMatched fd d) := by
  induction descs with
  | nil =>
    intro fmt res _ _ _
    exact ⟨fmt, res, rfl, by simp⟩
  | cons d rest ih =>
    intro fmt res hok hnodup hfresh
    obtain ⟨⟨df, filtered⟩, hfd⟩ := hok d (List.mem_cons_self ..)
    have hid : d.id ∉ rest.map InputDescriptor.id := by
      have := hnodup
      simp only [List.map_cons, List.nodup_cons] at this
      exact this.1
    have hnodup' : (rest.map InputDescriptor.id).Nodup := by
      have := hnodup
      simp only [List.map_cons, List.nodup_cons] at this
      exact this.2
    have hok' : ∀ d' ∈ rest, ∃ x, fd d' = .ok x :=
      fun d' hd' => hok d' (List.mem_cons_of_mem _ hd')
    by_cases hf : filtered.length ≠ 0
    · have hpd : descMatched fd d = true := by
        simp [descMatched, hfd, hf]
      have hfresh' : ∀ d' ∈ rest, alookup (alistInsert res d.id filtered) d'.id = none := by
        intro d' hd'
        have hne : d'.id ≠ d.id := by
          intro hcon
          exact hid (hcon ▸ List.mem_map_of_mem InputDescriptor.id hd')
        rw [alookup_alistInsert_ne res filtered hne]
        exact hfresh d' (List.mem_cons_of_mem _ hd')
      obtain ⟨fmt', res', hloop, hlen⟩ :=
        ih (if df ≠ "" then df else fmt) (alistInsert res d.id filtered)
          hok' hnodup' hfresh'
      refine ⟨fmt', res', ?_, ?_⟩
      · simp only [leafLoop, hfd]
        rw [if_pos hf]
        exact hloop
      · rw [hlen,
          alistInsert_length_fresh res d.id filtered (hfresh d (List.mem_cons_self ..)),
          List.countP_cons, hpd, if_pos rfl]
        omega
    · have hpd : descMatched fd d = false := by
        simp [descMatched, hfd]
        simpa using hf
      obtain ⟨fmt', res', hloop, hlen⟩ :=
        ih (if df ≠ "" then df else fmt) res hok' hnodup'
          (fun d' hd' => hfresh d' (List.mem_cons_of_mem _ hd'))
      refine ⟨fmt', res', ?_, ?_⟩
      · simp only [leafLoop, hfd]
        rw [if_neg hf]
        exact hloop
      · rw [hlen, List.countP_cons, hpd, if_neg (by simp)]
        omega

/-- C7: a leaf requirement (descriptors present, every descriptor's
pipeline succeeding) evaluates to the `no-credentials` error exactly when
the number of descriptors that matched at least one credential fails the
requirement's `count`/`min`/`max` cardinality (each check being skipped
when the corresponding field is not positive, per `isLenApplicable`). -/
theorem applyRequirement_leaf_noCredentials_iff (fd : DescFilter)
    (name purpose rule : String) (count mn mx : Int)
    (descs : List InputDescriptor) (nested : List Requirement)
    (hne : descs ≠ [])
    (hok : ∀ d ∈ descs, ∃ x, fd d = .ok x)
    (hnodup : (descs.map InputDescriptor.id).Nodup) :
    (applyRequirement fd (.mk name purpose rule count mn mx descs nested) =
        .error .noCredentials) ↔
      isLenApplicable count mn mx (descs.countP (fun d => descMatched fd d)) = false := by
  obtain ⟨fmt', res', hloop, hlen⟩ :=
    leafLoop_spec fd descs FormatLDPVP [] hok hnodup (fun d _ => rfl)
  have hlenne : descs.length ≠ 0 := by
    intro hcon
    exact hne (List.length_eq_zero.mp hcon)
  have heval : applyRequirement fd (.mk name purpose rule count mn mx descs nested) =
      if isLenApplicable count mn mx res'.length then .ok (fmt', res')
      else .error .noCredentials := by
    rw [applyRequirement, if_pos hlenne, hloop]
  rw [heval, hlen]
  simp only [List.length_nil, Nat.zero_add]
  cases hla : isLenApplicable count mn mx (descs.countP (fun d => descMatched fd d)) with
  | true => simp
  | false => simp

/-- C7 witness: one descriptor, a pipeline returning no credentials, and
`count = 1`: the leaf fails with `no-credentials`. -/
theorem applyRequirement_leaf_noCredentials_iff_witness :
    applyRequirement (fun _ => .ok ("", []))
      (.mk "" "" "" 1 0 0 [InputDescriptor.mk "a" []] []) = .error .noCredentials :=
  (applyRequirement_leaf_noCredentials_iff (fun _ => .ok ("", [])) "" "" "" 1 0 0
      [InputDescriptor.mk "a" []] [] (by decide)
      (fun _ _ => ⟨("", []), rfl⟩) (by decide)).mpr (by decide)

theorem branchLoop_ne_noCredentials (fd : DescFilter) (rs : List Requirement) :
    ∀ (fmt : String) (nr : List ResMap) (s : SetMap),
      branchLoop fd rs fmt nr s ≠ .error .noCredentials := by
  induction rs with
  | nil =>
    intro fmt nr s
    simp [branchLoop]
  | cons r rest ih =>
    intro fmt nr s
    rw [branchLoop]
    cases happ : applyRequirement fd r with
    | error e =>
      dsimp only
      by_cases he : e = .noCredentials
      · rw [if_pos he]
        exact ih fmt nr s
      · rw [if_neg he]
        simp [he]
    | ok v =>
      obtain ⟨vf, res⟩ := v
      dsimp only
      by_cases hr : res.length ≠ 0
      · rw [if_pos hr]
        exact ih _ _ _
      · rw [if_neg hr]
        exact ih _ _ _

theorem branchLoop_skip (fd : DescFilter) (child : Requirement)
    (hchild : applyRequirement fd child = .error .noCredentials) (l1 l2 : List Requirement) :
    ∀ (fmt : String) (nr : List ResMap) (s : SetMap),
      branchLoop fd (l1 ++ child :: l2) fmt nr s = branchLoop fd (l1 ++ l2) fmt nr s := by
  induction l1 with
  | nil =>
    intro fmt nr s
    rw [List.nil_append, List.nil_append, branchLoop, hchild]
    dsimp only
    rw [if_pos rfl]
  | cons r rest ih =>
    intro fmt nr s
    rw [List.cons_append, List.cons_append, branchLoop, branchLoop]
    cases happ : applyRequirement fd r with
    | error e =>
      dsimp only
      by_cases he : e = .noCredentials
      · rw [if_pos he, if_pos he, ih]
      · rw [if_neg he, if_neg he]
    | ok v =>
      obtain ⟨vf, res⟩ := v
      dsimp only
      by_cases hr : res.length ≠ 0
      · rw [if_pos hr, if_pos hr, ih]
      · rw [if_neg hr, if_neg hr, ih]

theorem branchLoop_abort (fd : DescFilter) (child : Requirement) (e : PErr)
    (hne : e ≠ .noCredentials) (hchild : applyRequirement fd child = .error e)
    (l1 l2 : List Requirement)
    (hpre : ∀ r ∈ l1, applyRequirement fd r = .error .noCredentials ∨
      ∃ v, applyRequirement fd r = .ok v) :
    ∀ (fmt : String) (nr : List ResMap) (s : SetMap),
      branchLoop fd (l1 ++ child :: l2) fmt nr s = .error e := by
  induction l1 with
  | nil =>
    intro fmt nr s
    rw [List.nil_append, branchLoop, hchild]
    dsimp only
    rw [if_neg hne]
  | cons r rest ih =>
    intro fmt nr s
    have ih' := ih (fun r' hr' => hpre r' (List.mem_cons_of_mem _ hr'))
    rw [List.cons_append, branchLoop]
    rcases hpre r (List.mem_cons_self ..) with hskip | ⟨⟨vf, res⟩, hok⟩
    · rw [hskip]
      dsimp only
      rw [if_pos rfl]
      exact ih' _ _ _
    · rw [hok]
      dsimp only
      by_cases hr : res.length ≠ 0
      · rw [if_pos hr]
        exact ih' _ _ _
      · rw [if_neg hr]
        exact ih' _ _ _

/-- C2 counterexample: a branch whose single child evaluates to the
`no-credentials` error does not itself return `no-credentials`: it
succeeds with an empty result map.  (So the branch does not return the
error when every child does, falsifying the claimed equivalence.) -/
theorem applyRequirement_branch_all_children_fail_ok :
    applyRequirement (fun _ => .ok ("", []))
        (.mk "" "" "" 1 0 0 [InputDescriptor.mk "a" []] []) = .error .noCredentials ∧
    applyRequirement (fun _ => .ok ("", []))
        (.mk "" "" "" 1 0 0 [] [.mk "" "" "" 1 0 0 [InputDescriptor.mk "a" []] []]) =
      .ok (FormatLDPVP, []) :=
  ⟨rfl, rfl⟩

/-- C2 amended: for a branch requirement a child evaluating to
`no-credentials` is skipped when merging and any other child error aborts
the whole call, but the branch itself never returns `no-credentials`:
when every child returns it, the branch yields an empty result with no
error. -/
theorem applyRequirement_branch_error_policy (fd : DescFilter)
    (name purpose rule : String) (count mn mx : Int)
    (child : Requirement) (l1 l2 : List Requirement) :
    (applyRequirement fd (.mk name purpose rule count mn mx [] (l1 ++ child :: l2)) ≠
        .error .noCredentials) ∧
    (applyRequirement fd child = .error .noCredentials →
      applyRequirement fd (.mk name purpose rule count mn mx [] (l1 ++ child :: l2)) =
        applyRequirement fd (.mk name purpose rule count mn mx [] (l1 ++ l2))) ∧
    (∀ e : PErr, e ≠ .noCredentials → applyRequirement fd child = .error e →
      (∀ r ∈ l1, applyRequirement fd r = .error .noCredentials ∨
        ∃ v, applyRequirement fd r = .ok v) →
      applyRequirement fd (.mk name purpose rule count mn mx [] (l1 ++ child :: l2)) =
        .error e) := by
  refine ⟨?_, ?_, ?_⟩
  · rw [applyRequirement, if_neg (by simp)]
    cases hb : branchLoop fd (l1 ++ child :: l2) FormatLDPVP [] [] with
    | error e =>
      intro hcon
      simp only [] at hcon
      have he : e = PErr.noCredentials := Except.error.inj hcon
      exact branchLoop_ne_noCredentials fd (l1 ++ child :: l2) FormatLDPVP [] [] (he ▸ hb)
    | ok v =>
      obtain ⟨vf, nr, s⟩ := v
      simp
  · intro hchild
    rw [applyRequirement, applyRequirement, if_neg (by simp), if_neg (by simp),
      branchLoop_skip fd child hchild l1 l2]
  · intro e he hchild hpre
    rw [applyRequirement, if_neg (by simp),
      branchLoop_abort fd child e he hchild l1 l2 hpre]

/-- C2 witness: the skip property applied at a concrete branch whose only
child fails with `no-credentials`. -/
theorem applyRequirement_branch_error_policy_witness :
    applyRequirement (fun _ => .ok ("", []))
        (.mk "" "" "" 1 0 0 []
          [Requirement.mk "" "" "" 1 0 0 [InputDescriptor.mk "a" []] []]) =
      applyRequirement (fun _ => .ok ("", [])) (.mk "" "" "" 1 0 0 [] []) :=
  (applyRequirement_branch_error_policy (fun _ => .ok ("", [])) "" "" "" 1 0 0
      (.mk "" "" "" 1 0 0 [InputDescriptor.mk "a" []] []) [] []).2.1 rfl

theorem lookupField_updateField_self (fs : List (String × Json)) (k : String)
    (f : Json → Json) :
    lookupField (updateField fs k f) k =
      some (f ((lookupField fs k).getD Json.null)) := by
  induction fs with
  | nil => simp [updateField, lookupField]
  | cons kv rest ih =>
    obtain ⟨a, w⟩ := kv
    by_cases ha : a = k
    · subst ha
      simp [updateField, lookupField]
    · simp [updateField, lookupField, ha, ih]

theorem lookupField_updateField_ne (fs : List (String × Json)) {k k' : String}
    (f : Json → Json) (h : k' ≠ k) :
    lookupField (updateField fs k f) k' = lookupField fs k' := by
  have hk : ¬ (k = k') := fun hh => h hh.symm
  induction fs with
  | nil => simp [updateField, lookupField, hk]
  | cons kv rest ih =>
    obtain ⟨a, w⟩ := kv
    by_cases ha : a = k
    · subst ha
      simp [updateField, lookupField, hk]
    · simp [updateField, lookupField, ha, ih]

theorem jsonGetSegs_cons (k : String) (rest : List String) (d : Json) :
    jsonGetSegs (k :: rest) d =
      match lookupField (jsonFields d) k with
      | some w => jsonGetSegs rest w
      | none => none := by
  cases d <;> rfl

theorem jsonFields_obj (fs : List (String × Json)) : jsonFields (.obj fs) = fs := rfl

theorem jsonGetSegs_setSegs_self :
    ∀ (segs : List String) (d v : Json),
      jsonGetSegs segs (jsonSetSegs segs d v) = some v := by
  intro segs
  induction segs with
  | nil => intro d v; rfl
  | cons k rest ih =>
    intro d v
    rw [jsonSetSegs, jsonGetSegs_cons]
    rw [jsonFields_obj]
    rw [lookupField_updateField_self]
    exact ih _ _

theorem jsonGetSegs_setSegs_unrelated :
    ∀ (qsegs psegs : List String) (d v : Json),
      ¬ qsegs <+: psegs → ¬ psegs <+: qsegs →
      jsonGetSegs psegs (jsonSetSegs qsegs d v) = jsonGetSegs psegs d := by
  intro qsegs
  induction qsegs with
  | nil =>
    intro psegs d v hq _
    exact absurd List.nil_prefix hq
  | cons qk qrest ih =>
    intro psegs d v hq hp
    cases psegs with
    | nil => exact absurd List.nil_prefix hp
    | cons pk prest =>
      rw [jsonSetSegs, jsonGetSegs_cons, jsonGetSegs_cons]
      rw [jsonFields_obj]
      by_cases hk : qk = pk
      · subst hk
        have hq2 : ¬ qrest <+: prest := fun hcon =>
          hq (List.cons_prefix_cons.mpr ⟨rfl, hcon⟩)
        have hp2 : ¬ prest <+: qrest := fun hcon =>
          hp (List.cons_prefix_cons.mpr ⟨rfl, hcon⟩)
        rw [lookupField_updateField_self]
        cases hlk : lookupField (jsonFields d) qk with
        | some w =>
          simp only [Option.getD_some]
          show jsonGetSegs prest (jsonSetSegs qrest w v) = jsonGetSegs prest w
          exact ih prest w v hq2 hp2
        | none =>
          simp only [Option.getD_none]
          show jsonGetSegs prest (jsonSetSegs qrest Json.null v) = none
          rw [ih prest Json.null v hq2 hp2]
          have hpne : prest ≠ [] := by
            intro hcon
            subst hcon
            exact hp (List.cons_prefix_cons.mpr ⟨rfl, List.nil_prefix⟩)
          obtain ⟨c, cs, rfl⟩ := List.exists_cons_of_ne_nil hpne
          rfl
      · rw [lookupField_updateField_ne _ _ (fun hh => hk hh.symm)]

theorem docGet_setPath_self (doc : Doc) (p : String) (v : Json) :
    docGet (setPath doc p v) p = some v :=
  jsonGetSegs_setSegs_self (pathSegs p) doc v

theorem docGet_setPath_unrelated (doc : Doc) {q p : String} (v : Json)
    (h : ¬ pathsOverlap q p) :
    docGet (setPath doc q v) p = docGet doc p := by
  unfold pathsOverlap at h
  push_neg at h
  exact jsonGetSegs_setSegs_unrelated (pathSegs q) (pathSegs p) doc v h.1 h.2

theorem cncPathLoop_preserves_true (ld bbs : Bool) (srcGet : String → Json)
    (f : CNCField) (hf : f.predicate = some requiredPref) (p0 : String) :
    ∀ (pairs : List (String × String)),
      (∀ qp ∈ pairs, goContains qp.1 credentialSchemaStr = true ∨ qp.1 = p0 ∨
        ¬ pathsOverlap qp.1 p0) →
      ∀ (doc : Doc) (mbp : Bool) (exp : List String),
        docGet doc p0 = some (.b true) →
        docGet (cncPathLoop ld bbs srcGet f pairs (doc, mbp, exp)).1 p0 =
          some (.b true) := by
  intro pairs
  induction pairs with
  | nil =>
    intro _ doc mbp exp h
    simpa [cncPathLoop] using h
  | cons pair rest ih =>
    intro hcond doc mbp exp h
    obtain ⟨q0, q1⟩ := pair
    have hcond2 := fun qp hqp => hcond qp (List.mem_cons_of_mem _ hqp)
    rw [cncPathLoop]
    by_cases hskip : goContains q0 credentialSchemaStr = true
    · rw [if_pos hskip]
      exact ih hcond2 doc mbp exp h
    · rw [if_neg hskip]
      have hval : (if f.predicate = none ∨ f.predicate ≠ some requiredPref
          then srcGet q1 else Json.b true) = Json.b true := by
        simp [hf]
      rw [hval]
      rcases hcond (q0, q1) (List.mem_cons_self ..) with hc | hc | hc
      · exact absurd hc hskip
      · have hc2 : q0 = p0 := hc
        exact ih hcond2 _ _ _ (by rw [hc2]; exact docGet_setPath_self doc p0 (.b true))
      · have hc2 : ¬ pathsOverlap q0 p0 := hc
        exact ih hcond2 _ _ _ ((docGet_setPath_unrelated doc (.b true) hc2).trans h)

theorem cncPathLoop_writes_true (ld bbs : Bool) (srcGet : String → Json)
    (f : CNCField) (hf : f.predicate = some requiredPref) (p0 p1 : String)
    (hns : goContains p0 credentialSchemaStr = false) :
    ∀ (pairs : List (String × String)), (p0, p1) ∈ pairs →
      (∀ qp ∈ pairs, goContains qp.1 credentialSchemaStr = true ∨ qp.1 = p0 ∨
        ¬ pathsOverlap qp.1 p0) →
      ∀ (doc : Doc) (mbp : Bool) (exp : List String),
        docGet (cncPathLoop ld bbs srcGet f pairs (doc, mbp, exp)).1 p0 =
          some (.b true) := by
  intro pairs
  induction pairs with
  | nil => intro h; simp at h
  | cons pair rest ih =>
    intro hmem hcond doc mbp exp
    obtain ⟨q0, q1⟩ := pair
    have hcond2 := fun qp hqp => hcond qp (List.mem_cons_of_mem _ hqp)
    rw [cncPathLoop]
    by_cases hskip : goContains q0 credentialSchemaStr = true
    · rw [if_pos hskip]
      rcases List.mem_cons.mp hmem with h | h
      · injection h with h0 h1
        rw [h0] at hns
        rw [hns] at hskip
        exact absurd hskip (by simp)
      · exact ih h hcond2 doc mbp exp
    · rw [if_neg hskip]
      have hval : (if f.predicate = none ∨ f.predicate ≠ some requiredPref
          then srcGet q1 else Json.b true) = Json.b true := by
        simp [hf]
      rw [hval]
      by_cases hq : q0 = p0
      · exact cncPathLoop_preserves_true ld bbs srcGet f hf p0 rest hcond2 _ _ _
          (by rw [hq]; exact docGet_setPath_self doc p0 (.b true))
      · have hmem2 : (p0, p1) ∈ rest := by
          rcases List.mem_cons.mp hmem with h | h
          · injection h with h0 h1
            exact absurd h0.symm hq
          · exact h
        exact ih hmem2 hcond2 _ _ _

theorem cncPathLoop_untouched (ld bbs : Bool) (srcGet : String → Json)
    (g : CNCField) (p0 : String) :
    ∀ (pairs : List (String × String)),
      (∀ qp ∈ pairs, goContains qp.1 credentialSchemaStr = true ∨
        ¬ pathsOverlap qp.1 p0) →
      ∀ (doc : Doc) (mbp : Bool) (exp : List String),
        docGet (cncPathLoop ld bbs srcGet g pairs (doc, mbp, exp)).1 p0 =
          docGet doc p0 := by
  intro pairs
  induction pairs with
  | nil => intro _ doc mbp exp; simp [cncPathLoop]
  | cons pair rest ih =>
    intro hh doc mbp exp
    obtain ⟨q0, q1⟩ := pair
    rw [cncPathLoop]
    by_cases hskip : goContains q0 credentialSchemaStr = true
    · rw [if_pos hskip]
      exact ih (fun qp hqp => hh qp (List.mem_cons_of_mem _ hqp)) doc mbp exp
    · rw [if_neg hskip]
      have hq : ¬ pathsOverlap q0 p0 := by
        rcases hh (q0, q1) (List.mem_cons_self ..) with h | h
        · exact absurd h hskip
        · exact h
      rw [ih (fun qp hqp => hh qp (List.mem_cons_of_mem _ hqp)) _ _ _,
        docGet_setPath_unrelated doc _ hq]

theorem cncPathLoop_mbp_monotone (ld bbs : Bool) (srcGet : String → Json)
    (g : CNCField) :
    ∀ (pairs : List (String × String)) (doc : Doc) (exp : List String),
      (cncPathLoop ld bbs srcGet g pairs (doc, true, exp)).2.1 = true := by
  intro pairs
  induction pairs with
  | nil => intro doc exp; simp [cncPathLoop]
  | cons pair rest ih =>
    intro doc exp
    obtain ⟨q0, q1⟩ := pair
    rw [cncPathLoop]
    by_cases hskip : goContains q0 credentialSchemaStr = true
    · rw [if_pos hskip]
      exact ih doc exp
    · rw [if_neg hskip]
      exact ih _ _

theorem cncPathLoop_mbp_set (ld bbs : Bool) (srcGet : String → Json)
    (f : CNCField) (hf : f.predicate = some requiredPref) (p0 p1 : String)
    (hns : goContains p0 credentialSchemaStr = false) :
    ∀ (pairs : List (String × String)), (p0, p1) ∈ pairs →
      ∀ (doc : Doc) (mbp : Bool) (exp : List String),
        (cncPathLoop ld bbs srcGet f pairs (doc, mbp, exp)).2.1 = true := by
  intro pairs
  induction pairs with
  | nil => intro h; simp at h
  | cons pair rest ih =>
    intro hmem doc mbp exp
    obtain ⟨q0, q1⟩ := pair
    rw [cncPathLoop]
    by_cases hskip : goContains q0 credentialSchemaStr = true
    · rw [if_pos hskip]
      rcases List.mem_cons.mp hmem with h | h
      · injection h with h0 h1
        rw [h0] at hns
        rw [hns] at hskip
        exact absurd hskip (by simp)
      · exact ih h doc mbp exp
    · rw [if_neg hskip]
      rcases List.mem_cons.mp hmem with h | h
      · have hm : (if mbp then mbp else prefIsRequired f.predicate) = true := by
          cases mbp
          · simp [prefIsRequired, hf, requiredPref]
          · rfl
        rw [hm]
        exact cncPathLoop_mbp_monotone ld bbs srcGet f rest _ _
      · exact ih h _ _ _

theorem cncFieldsLoop_append (ld bbs : Bool) (jpaths : List String → List (String × String))
    (srcGet : String → Json) (a b : List CNCField) :
    ∀ st, cncFieldsLoop ld bbs jpaths srcGet (a ++ b) st =
      cncFieldsLoop ld bbs jpaths srcGet b (cncFieldsLoop ld bbs jpaths srcGet a st) := by
  induction a with
  | nil => intro st; rfl
  | cons f rest ih =>
    intro st
    rw [List.cons_append, cncFieldsLoop, cncFieldsLoop, ih]

theorem cncFieldsLoop_untouched (ld bbs : Bool) (jpaths : List String → List (String × String))
    (srcGet : String → Json) (p0 : String) :
    ∀ (fields : List CNCField),
      (∀ g ∈ fields, ∀ qp ∈ jpaths g.path,
        goContains qp.1 credentialSchemaStr = true ∨ ¬ pathsOverlap qp.1 p0) →
      ∀ st, docGet (cncFieldsLoop ld bbs jpaths srcGet fields st).1 p0 = docGet st.1 p0 := by
  intro fields
  induction fields with
  | nil => intro _ st; rfl
  | cons g rest ih =>
    intro hh st
    obtain ⟨doc, mbp, exp⟩ := st
    rw [cncFieldsLoop, ih (fun g2 hg2 => hh g2 (List.mem_cons_of_mem _ hg2)),
      cncPathLoop_untouched ld bbs srcGet g p0 (jpaths g.path)
        (hh g (List.mem_cons_self ..)) doc mbp exp]

theorem cncFieldsLoop_mbp_monotone (ld bbs : Bool)
    (jpaths : List String → List (String × String)) (srcGet : String → Json) :
    ∀ (fields : List CNCField) (st : Doc × Bool × List String), st.2.1 = true →
      (cncFieldsLoop ld bbs jpaths srcGet fields st).2.1 = true := by
  intro fields
  induction fields with
  | nil => intro st h; exact h
  | cons g rest ih =>
    intro st h
    obtain ⟨doc, mbp, exp⟩ := st
    simp only at h
    subst h
    rw [cncFieldsLoop]
    exact ih _ (cncPathLoop_mbp_monotone ld bbs srcGet g (jpaths g.path) doc exp)

/-- C8 counterexample: two fields matching the same path, the first with
`predicate = required`, the second without a predicate.  The reshaping
applies (predicate mode is set, the credential is not SD-JWT), the path is
not a `credentialSchema` path, yet the emitted credential carries the
original value at that path, not boolean `true`: the second field's write
overwrote the predicate substitution. -/
theorem createNewCredential_predicate_overwritten :
    goContains "a" credentialSchemaStr = false ∧
    (createNewCredential false false (fun ps => ps.map (fun p => (p, p)))
        (fun _ => .s "1990")
        [CNCField.mk ["a"] (some requiredPref), CNCField.mk ["a"] none]
        (Json.obj [])).bind
      (fun doc => docGet doc "a") = some (.s "1990") ∧
    Json.s "1990" ≠ .b true :=
  ⟨by decide, rfl, fun h => Json.noConfusion h⟩

/-- C8 amended: every `credentialSchema`-free JSONPath match of a
`predicate = required` field is written as boolean `true`, and the emitted
credential carries `true` at that path provided no later write overlaps
it: every other match of the same field either equals the path or does not
overlap it (is neither an ancestor nor a descendant, segment-wise), and
every match of a later field does not overlap it.  Writes replace whole
subtrees, so a later field matching the same path, an ancestor or a
descendant restores or destroys the substituted value — the counterexample
shows the same-path case. -/
theorem createNewCredential_predicate_true (ld bbs : Bool)
    (jpaths : List String → List (String × String)) (srcGet : String → Json)
    (pre post : List CNCField) (f : CNCField) (template : Doc) (p0 p1 : String)
    (hf : f.predicate = some requiredPref)
    (hmem : (p0, p1) ∈ jpaths f.path)
    (hns : goContains p0 credentialSchemaStr = false)
    (hown : ∀ qp ∈ jpaths f.path, goContains qp.1 credentialSchemaStr = true ∨
      qp.1 = p0 ∨ ¬ pathsOverlap qp.1 p0)
    (hpost : ∀ g ∈ post, ∀ qp ∈ jpaths g.path,
      goContains qp.1 credentialSchemaStr = true ∨ ¬ pathsOverlap qp.1 p0) :
    ∃ doc, createNewCredential ld bbs jpaths srcGet (pre ++ f :: post) template = some doc ∧
      docGet doc p0 = some (.b true) := by
  have hsplit := cncFieldsLoop_append ld bbs jpaths srcGet pre (f :: post)
    (template, false, [])
  set st1 := cncFieldsLoop ld bbs jpaths srcGet pre (template, false, []) with hst1
  obtain ⟨doc1, mbp1, exp1⟩ := st1
  have hmid : cncFieldsLoop ld bbs jpaths srcGet (f :: post) (doc1, mbp1, exp1) =
      cncFieldsLoop ld bbs jpaths srcGet post
        (cncPathLoop ld bbs srcGet f (jpaths f.path) (doc1, mbp1, exp1)) := by
    rw [cncFieldsLoop]
  set st2 := cncPathLoop ld bbs srcGet f (jpaths f.path) (doc1, mbp1, exp1) with hst2
  obtain ⟨doc2, mbp2, exp2⟩ := st2
  have hdoc2 : docGet doc2 p0 = some (.b true) := by
    have := cncPathLoop_writes_true ld bbs srcGet f hf p0 p1 hns (jpaths f.path)
      hmem hown doc1 mbp1 exp1
    rw [← hst2] at this
    exact this
  have hmbp2 : mbp2 = true := by
    have := cncPathLoop_mbp_set ld bbs srcGet f hf p0 p1 hns (jpaths f.path) hmem
      doc1 mbp1 exp1
    rw [← hst2] at this
    exact this
  set st3 := cncFieldsLoop ld bbs jpaths srcGet post (doc2, mbp2, exp2) with hst3
  have hdoc3 : docGet st3.1 p0 = some (.b true) := by
    rw [hst3, cncFieldsLoop_untouched ld bbs jpaths srcGet p0 post hpost]
    exact hdoc2
  have hmbp3 : st3.2.1 = true := by
    rw [hst3]
    exact cncFieldsLoop_mbp_monotone ld bbs jpaths srcGet post (doc2, mbp2, exp2)
      (by simpa using hmbp2)
  refine ⟨st3.1, ?_, hdoc3⟩
  rw [createNewCredential, hsplit, hmid]
  rw [if_pos (Or.inr (Or.inr hmbp3))]

/-- C8 witness: one predicate-required field alone: the emitted document
carries boolean `true` at the matched path. -/
theorem createNewCredential_predicate_true_witness :
    ∃ doc, createNewCredential false false (fun ps => ps.map (fun p => (p, p)))
        (fun _ => .s "1990") [CNCField.mk ["a"] (some requiredPref)]
        (Json.obj []) = some doc ∧
      docGet doc "a" = some (.b true) :=
  createNewCredential_predicate_true false false (fun ps => ps.map (fun p => (p, p)))
    (fun _ => .s "1990") [] [] (CNCField.mk ["a"] (some requiredPref))
    (Json.obj []) "a" "a"
    rfl (by decide) (by decide) (by decide) (by intro g hg; simp at hg)

theorem strIndex_of_prefix (pat : List Char) :
    ∀ (n : Nat) (s : List Char), pat <+: s.drop n → (∀ m < n, ¬ pat <+: s.drop m) →
      strIndex s pat = some n := by
  intro n
  induction n with
  | zero =>
    intro s hpref _
    rw [List.drop_zero] at hpref
    cases s with
    | nil => rw [strIndex, if_pos hpref]
    | cons c t => rw [strIndex, if_pos hpref]
  | succ n ih =>
    intro s hpref hmin
    have h0 : ¬ pat <+: s := by
      have := hmin 0 (Nat.succ_pos n)
      rwa [List.drop_zero] at this
    cases s with
    | nil =>
      rw [List.drop_nil] at hpref
      exact absurd (List.prefix_nil.mp hpref ▸ List.nil_prefix) h0
    | cons c t =>
      rw [strIndex, if_neg h0,
        ih t hpref (fun m hm => hmin (m + 1) (Nat.succ_lt_succ hm))]
      rfl

theorem strIndex_some_spec (pat : List Char) :
    ∀ (s : List Char) (n : Nat), strIndex s pat = some n →
      pat <+: s.drop n ∧ ∀ m < n, ¬ pat <+: s.drop m := by
  intro s
  induction s with
  | nil =>
    intro n h
    rw [strIndex] at h
    by_cases hc : pat <+: ([] : List Char)
    · rw [if_pos hc] at h
      injection h with h
      subst h
      exact ⟨hc, fun m hm => absurd hm (Nat.not_lt_zero m)⟩
    · rw [if_neg hc] at h
      exact absurd h (by simp)
  | cons c t ih =>
    intro n h
    rw [strIndex] at h
    by_cases hc : pat <+: (c :: t)
    · rw [if_pos hc] at h
      injection h with h
      subst h
      exact ⟨by simpa using hc, fun m hm => absurd hm (Nat.not_lt_zero m)⟩
    · rw [if_neg hc] at h
      cases hh : strIndex t pat with
      | none => rw [hh] at h; simp at h
      | some n' =>
        rw [hh] at h
        simp at h
        subst h
        obtain ⟨hpref, hmin⟩ := ih n' hh
        refine ⟨hpref, ?_⟩
        intro m hm
        cases m with
        | zero =>
          rw [List.drop_zero]
          exact hc
        | succ m => exact hmin m (Nat.lt_of_succ_lt_succ hm)

theorem strIndex_none_spec (pat : List Char) :
    ∀ (s : List Char), strIndex s pat = none → ∀ n, ¬ pat <+: s.drop n := by
  intro s
  induction s with
  | nil =>
    intro h n hp
    rw [List.drop_nil] at hp
    have := List.prefix_nil.mp hp
    subst this
    rw [strIndex, if_pos List.nil_prefix] at h
    exact absurd h (by simp)
  | cons c t ih =>
    intro h n hp
    rw [strIndex] at h
    by_cases hc : pat <+: (c :: t)
    · rw [if_pos hc] at h
      exact absurd h (by simp)
    · rw [if_neg hc] at h
      have ht : strIndex t pat = none := by
        cases hh : strIndex t pat
        · rfl
        · rw [hh] at h; simp at h
      cases n with
      | zero => exact hc (by simpa using hp)
      | succ n => exact ih ht n hp

theorem prefix_append_of_le_length {p a b : List Char}
    (h : p <+: a ++ b) (hl : p.length ≤ a.length) : p <+: a := by
  have heq := List.prefix_iff_eq_take.mp h
  have htake : (a ++ b).take p.length = a.take p.length := by
    rw [List.take_append_eq_append_take, Nat.sub_eq_zero_of_le hl, List.take_zero,
      List.append_nil]
  rw [heq, htake]
  exact List.take_prefix _ _

/-- The transient marker has no non-trivial self-overlap: no character of
it other than the first is a `t`. -/
theorem marker_no_overlap :
    ∀ k, k < tmpEnding.data.length → 0 < k →
      tmpEnding.data[k]? ≠ tmpEnding.data[0]? := by
  decide

theorem strIndex_marker_append (id uuid : List Char)
    (hno : ¬ tmpEnding.data <:+: id) :
    strIndex (id ++ (tmpEnding.data ++ uuid)) tmpEnding.data = some id.length := by
  apply strIndex_of_prefix
  · rw [List.drop_left]
    exact List.prefix_append _ _
  · intro m hm hp
    by_cases hcase : m + tmpEnding.data.length ≤ id.length
    · have hdrop : (id ++ (tmpEnding.data ++ uuid)).drop m =
          id.drop m ++ (tmpEnding.data ++ uuid) := by
        rw [List.drop_append_eq_append_drop, Nat.sub_eq_zero_of_le (le_of_lt hm),
          List.drop_zero]
      rw [hdrop] at hp
      have hlen : tmpEnding.data.length ≤ (id.drop m).length := by
        rw [List.length_drop]
        omega
      have hpre : tmpEnding.data <+: id.drop m := prefix_append_of_le_length hp hlen
      exact hno (List.infix_iff_prefix_suffix.mpr ⟨id.drop m, hpre, List.drop_suffix m id⟩)
    · have hk1 : 0 < id.length - m := by omega
      have hk2 : id.length - m < tmpEnding.data.length := by omega
      have heq := List.prefix_iff_eq_take.mp hp
      have h1 : tmpEnding.data[id.length - m]? =
          (id ++ (tmpEnding.data ++ uuid))[m + (id.length - m)]? := by
        conv_lhs => rw [heq]
        rw [List.getElem?_take, if_pos hk2, List.getElem?_drop]
      have hmk : m + (id.length - m) = id.length := by omega
      have h2 : (id ++ (tmpEnding.data ++ uuid))[m + (id.length - m)]? =
          tmpEnding.data[0]? := by
        rw [hmk, List.getElem?_append_right (le_refl _), Nat.sub_self,
          List.getElem?_append, if_pos (by decide)]
      exact marker_no_overlap (id.length - m) hk2 hk1 (h1.trans h2)

/-- C9 round-trip at the level of character data. -/
theorem trimTmpID_tmpID_data (id uuid : String)
    (hno : ¬ tmpEnding.data <:+: id.data) :
    trimTmpID (tmpID id uuid) = id := by
  have hdata : (tmpID id uuid).data = id.data ++ (tmpEnding.data ++ uuid.data) := by
    rw [tmpID, String.data_append, String.data_append, List.append_assoc]
  rw [trimTmpID, hdata, strIndex_marker_append id.data uuid.data hno]
  show String.mk ((id.data ++ (tmpEnding.data ++ uuid.data)).take id.data.length) = id
  rw [List.take_left]

/-- The id produced by `trimTmpID` never contains the transient marker:
the cut happens at the first occurrence. -/
theorem trimTmpID_no_marker (id : String) :
    ¬ tmpEnding.data <:+: (trimTmpID id).data := by
  rw [trimTmpID]
  cases hidx : strIndex id.data tmpEnding.data with
  | none =>
    intro hinf
    obtain ⟨t, hpre, hsuf⟩ := List.infix_iff_prefix_suffix.mp hinf
    have hteq := List.suffix_iff_eq_drop.mp hsuf
    rw [hteq] at hpre
    exact strIndex_none_spec tmpEnding.data id.data hidx _ hpre
  | some idx =>
    intro hinf
    have hinf2 : tmpEnding.data <:+: id.data.take idx := hinf
    obtain ⟨hpref, hmin⟩ := strIndex_some_spec tmpEnding.data id.data idx hidx
    obtain ⟨t, hpre, hsuf⟩ := List.infix_iff_prefix_suffix.mp hinf2
    have htne : t ≠ [] := by
      intro hcon
      subst hcon
      have h1 := List.prefix_nil.mp hpre
      have h2 : tmpEnding.data ≠ [] := by decide
      exact h2 h1
    have hteq := List.suffix_iff_eq_drop.mp hsuf
    set j := (id.data.take idx).length - t.length with hj
    rw [hteq] at hpre
    have hpre2 : tmpEnding.data <+: id.data.drop j := by
      rw [List.drop_take] at hpre
      exact hpre.trans (List.take_prefix _ _)
    have hjlt : j < idx := by
      have htlen : 0 < t.length := List.length_pos.mpr htne
      have htle : t.length ≤ (id.data.take idx).length := hsuf.length_le
      have htake : (id.data.take idx).length ≤ idx := by
        rw [List.length_take]
        exact min_le_left _ _
      omega
    exact hmin j hjlt hpre2

theorem mergeStep_sources (pf k : String) (st : MergeSt) (c : Cred) :
    ∀ x ∈ (mergeStep pf k st c).result,
      x ∈ st.result ∨ x = { c with id := trimTmpID c.id } := by
  intro x hx
  rw [mergeStep] at hx
  cases hsoc : alookup st.setOfCreds c.id with
  | some n =>
    rw [hsoc] at hx
    simp only at hx
    cases alookup st.setOfDescriptors (c.id ++ "-" ++ c.id) with
    | some u => exact Or.inl hx
    | none => exact Or.inl hx
  | none =>
    rw [hsoc] at hx
    simp only at hx
    cases alookup st.setOfDescriptors
        (trimTmpID c.id ++ "-" ++ trimTmpID c.id) with
    | some u =>
      rcases List.mem_append.mp hx with h | h
      · exact Or.inl h
      · exact Or.inr (by simpa using h)
    | none =>
      rcases List.mem_append.mp hx with h | h
      · exact Or.inl h
      · exact Or.inr (by simpa using h)

theorem mergeFold_sources (pf k : String) (cs : List Cred) :
    ∀ (st : MergeSt) (x : Cred), x ∈ (cs.foldl (mergeStep pf k) st).result →
      x ∈ st.result ∨ ∃ d ∈ cs, x = { d with id := trimTmpID d.id } := by
  induction cs with
  | nil =>
    intro st x hx
    exact Or.inl hx
  | cons c rest ih =>
    intro st x hx
    rw [List.foldl_cons] at hx
    rcases ih (mergeStep pf k st c) x hx with h | ⟨d, hd, hxd⟩
    · rcases mergeStep_sources pf k st c x h with h' | h'
      · exact Or.inl h'
      · exact Or.inr ⟨c, List.mem_cons_self .., h'⟩
    · exact Or.inr ⟨d, List.mem_cons_of_mem _ hd, hxd⟩

theorem mergeKeyLoop_sources (pf : String) (m : ResMap) (keys : List String) :
    ∀ (st : MergeSt) (x : Cred), x ∈ (mergeKeyLoop pf m keys st).result →
      x ∈ st.result ∨ ∃ key creds d, alookup m key = some creds ∧ d ∈ creds ∧
        x = { d with id := trimTmpID d.id } := by
  induction keys with
  | nil =>
    intro st x hx
    exact Or.inl hx
  | cons k rest ih =>
    intro st x hx
    rw [mergeKeyLoop] at hx
    rcases ih _ x hx with h | h
    · cases hlk : alookup m k with
      | none =>
        rw [hlk] at h
        simp only [Option.getD_none] at h
        exact Or.inl h
      | some creds =>
        rw [hlk] at h
        simp only [Option.getD_some] at h
        rcases mergeFold_sources pf k creds st x h with h' | ⟨d, hd, hxd⟩
        · exact Or.inl h'
        · exact Or.inr ⟨k, creds, d, hlk, hd, hxd⟩
    · exact Or.inr h

/-- C9: appending the transient marker and a uuid to a marker-free
credential id and stripping it again recovers the id exactly; and every
credential `merge` emits into the output VP is an input credential carrying
its marker-free (trimmed) id. -/
theorem tmpID_roundtrip_and_merge_emission (pf : String) (m : ResMap)
    (id uuid : String) (hno : ¬ tmpEnding.data <:+: id.data) :
    trimTmpID (tmpID id uuid) = id ∧
    (∀ c ∈ (merge pf m).1, ∃ d,
      (∃ key creds, alookup m key = some creds ∧ d ∈ creds) ∧
      c = { d with id := trimTmpID d.id } ∧
      ¬ tmpEnding.data <:+: c.id.data) := by
  refine ⟨trimTmpID_tmpID_data id uuid hno, ?_⟩
  intro c hc
  rw [merge] at hc
  simp only at hc
  rcases mergeKeyLoop_sources pf m (sortStrings (m.map Prod.fst)) ⟨[], [], [], []⟩ c hc with
    h | ⟨key, creds, d, hlk, hd, hcd⟩
  · simp only [MergeSt.result] at h
    exact absurd h (List.not_mem_nil c)
  · refine ⟨d, ⟨key, creds, hlk, hd⟩, hcd, ?_⟩
    rw [hcd]
    exact trimTmpID_no_marker d.id

/-- C9 witness at a concrete marker-free id, uuid and result map. -/
theorem tmpID_roundtrip_and_merge_emission_witness :
    trimTmpID (tmpID "cred1" "u1") = "cred1" :=
  (tmpID_roundtrip_and_merge_emission "ldp_vp" [] "cred1" "u1" (by decide)).1

/-- A credential matching both descriptors `a` and `b` in the C1 failing
input. -/
def credShared : Cred := ⟨"cred1", "", none, [], []⟩

/-- The credential matching only descriptor `c` in the C1 failing input. -/
def credLone : Cred := ⟨"cred2", "", none, [], []⟩

/-- The C1 failing input: one credential satisfying descriptors `a` and
`b`, a second satisfying only `c` (reachable from a successful CreateVP
with a single leaf requirement over three descriptors, `count = 3`). -/
def mergeBugInput : ResMap :=
  [("a", [credShared]), ("b", [credShared]), ("c", [credLone])]

/-- C1 (code bug): on the failing input `merge` emits two credentials but
its descriptor map locators are `$.verifiableCredential[0]`,
`$.verifiableCredential[0]` and `$.verifiableCredential[2]`: the entry for
descriptor `c` points outside the two-element credential array, and no
entry references index 1 where `credLone` actually sits.  The cause is
`setOfCreds[credential.ID] = len(descriptors)` (the number of descriptor
map entries so far, not the credential's index in the result array),
combined with the dead `setOfDescriptors` guard. -/
theorem merge_locator_out_of_range :
    (merge FormatLDPVP mergeBugInput).1 =
      [credShared, credLone] ∧
    ((merge FormatLDPVP mergeBugInput).2.map
        (fun dm => (dm.pathNested.map NestedMapping.path).getD "")) =
      [vcPath 0, vcPath 0, vcPath 2] ∧
    vcPath 2 ≠ vcPath 1 := by
  refine ⟨by decide, by decide, by decide⟩

end Presexch
